import Mathlib

/-!
# Grid ray traversal of `raycast.cpp`

A shallow embedding of the traversal core of `src/raycast.cpp` (the body of the
lambda handed to `frm.display`, lines 190-247) and the properties the
specification states about it.

Numbers.  The program computes with `float`.  A `float` is modelled by `Flt`:
an exact rational, or one of the IEEE-754 special values `+inf`, `-inf`, `NaN`.
Arithmetic on finite values is exact (rounding and overflow are not modelled,
and there is no signed zero); arithmetic that involves a special value, or a
division by zero, follows the IEEE-754 rules.  This is what the release branch
of the program (`deltaXYZ = stepXYZ / rd`, "we dgaf about div by zero") needs
in order to be given a meaning at all.

What rounding bears on.  The theorems on the cell path (termination,
containment, adjacency, no revisits, starting cell, tie-break) never read the
values of `nextXYZ`, only the outcome of the comparison, and the cell
coordinates are small integers, which binary32 steps exactly; they hold
whatever the rounding is.  The theorem on the distances uses that `deltaXYZ` is
positive, which rounding keeps.  The lemma `coverage_exact` on the position of
the ray in the painted cells is a fact of exact arithmetic only: in binary32
the accumulated `nextXYZ` carries a rounding error, and a comparison decided by
that error paints a cell the ray misses by the size of the error.

Build configurations.  The source has two branches under `#ifdef _DEBUG`; the
embedding takes the flag as the Boolean `debug`.  The zero test
`mm::impl::is_eq` of the debug branch belongs to the maths library and is not
part of the source file, so it is a parameter `is_eq`.

Inputs.  The program fixes the world size (64, used for width and height
alike), the origin `ro = (16.5, 16)` and the length `len = 30`, and derives the
direction `rd` from the mouse position.  The embedding takes `world_size`,
`ro`, `rd` and `len` as parameters.

The loop.  The while loop is `loop`, with a fuel argument that bounds the number
of iterations; the theorems show that `world_size + world_size` iterations
always suffice.  Painting the pixels of a cell (lines 234-236) is not modelled:
the result of a frame lists the cells in the order in which they are painted.
-/

namespace Raycast

/-! ## Floats -/

/-- A `float`: an exact rational or an IEEE-754 special value. -/
inductive Flt where
  | fin (q : ℚ)
  | pinf
  | ninf
  | nan
deriving DecidableEq

namespace Flt

instance : OfNat Flt n := ⟨fin n⟩

instance : Inhabited Flt := ⟨fin 0⟩

/-- Unary minus. -/
def neg : Flt → Flt
  | fin q => fin (-q)
  | pinf => ninf
  | ninf => pinf
  | nan => nan

/-- Addition: `inf + -inf` is `NaN`. -/
def add : Flt → Flt → Flt
  | fin a, fin b => fin (a + b)
  | nan, _ => nan
  | _, nan => nan
  | pinf, ninf => nan
  | ninf, pinf => nan
  | pinf, _ => pinf
  | _, pinf => pinf
  | ninf, _ => ninf
  | _, ninf => ninf

/-- The product of the finite value `q` and an infinity, which is `+inf` when
`pos` is true and `-inf` otherwise; `0 * inf` is `NaN`. -/
def infTimes (q : ℚ) ( pos : Bool) : Flt :=
  if q = 0 then nan else if decide (0 < q) = pos then pinf else ninf

/-- Multiplication: `0 * inf` is `NaN`. -/
def mul : Flt → Flt → Flt
  | fin a, fin b => fin (a * b)
  | nan, _ => nan
  | _, nan => nan
  | fin a, pinf => infTimes a true
  | fin a, ninf => infTimes a false
  | pinf, fin b => infTimes b true
  | ninf, fin b => infTimes b false
  | pinf, pinf => pinf
  | ninf, ninf => pinf
  | pinf, ninf => ninf
  | ninf, pinf => ninf

/-- Division: `x / 0` is an infinity of the sign of `x` (the zero is `+0`),
`0 / 0` and `inf / inf` are `NaN`, and a finite value over an infinity is `0`. -/
def div : Flt → Flt → Flt
  | fin a, fin b => if b = 0 then infTimes a true else fin (a / b)
  | nan, _ => nan
  | _, nan => nan
  | fin _, pinf => fin 0
  | fin _, ninf => fin 0
  | pinf, fin b => if 0 ≤ b then pinf else ninf
  | ninf, fin b => if 0 ≤ b then ninf else pinf
  | pinf, pinf => nan
  | pinf, ninf => nan
  | ninf, pinf => nan
  | ninf, ninf => nan

/-- The comparison `a < b`; false as soon as one side is `NaN`. -/
def lt : Flt → Flt → Bool
  | fin a, fin b => decide (a < b)
  | fin _, pinf => true
  | ninf, fin _ => true
  | ninf, pinf => true
  | _, _ => false

/-- The comparison `a <= b`; false as soon as one side is `NaN`. -/
def le : Flt → Flt → Bool
  | fin a, fin b => decide (a ≤ b)
  | nan, _ => false
  | _, nan => false
  | ninf, _ => true
  | _, pinf => true
  | _, _ => false

/-- The comparison `a >= b`. -/
def ge (a b : Flt) : Bool := le b a

/-- The larger of two values, `a < b ? b : a`. -/
def max (a b : Flt) : Flt := if lt a b then b else a

/-- The smaller of two values, `a < b ? a : b`. -/
def min (a b : Flt) : Flt := if lt a b then a else b

/-- Rounding down to an integer; special values are left as they are. -/
def floor : Flt → Flt
  | fin q => fin (⌊q⌋ : ℤ)
  | x => x

instance : Neg Flt := ⟨neg⟩
instance : Add Flt := ⟨add⟩
instance : Mul Flt := ⟨mul⟩
instance : Div Flt := ⟨div⟩
instance : Sub Flt := ⟨fun a b => add a (neg b)⟩

end Flt

open Flt (fin pinf ninf nan)

/-! ## Two-component vectors -/

/-- The `vec2` of the maths library: two floats, all operations componentwise. -/
structure vec2 where
  x : Flt
  y : Flt
deriving DecidableEq

namespace vec2

instance : Inhabited vec2 := ⟨⟨0, 0⟩⟩

/-- A scalar used as a vector, as in `ro += EPSILON` or `max(stepXYZ, 0)`. -/
def splat (a : Flt) : vec2 := ⟨a, a⟩

instance : Neg vec2 := ⟨fun a => ⟨-a.x, -a.y⟩⟩
instance : Add vec2 := ⟨fun a b => ⟨a.x + b.x, a.y + b.y⟩⟩
instance : Sub vec2 := ⟨fun a b => ⟨a.x - b.x, a.y - b.y⟩⟩
instance : Mul vec2 := ⟨fun a b => ⟨a.x * b.x, a.y * b.y⟩⟩
instance : Div vec2 := ⟨fun a b => ⟨a.x / b.x, a.y / b.y⟩⟩

/-- Componentwise `floor`. -/
def floor (a : vec2) : vec2 := ⟨a.x.floor, a.y.floor⟩

/-- Componentwise `max`. -/
def max (a b : vec2) : vec2 := ⟨Flt.max a.x b.x, Flt.max a.y b.y⟩

end vec2

/-! ## Constants -/

/-- The macro `EPSILON`, `0.001f`. -/
def EPSILON : Flt := fin (1 / 1000)

/-- The macro `FLT_MAX`, `3.402823466e+38`. -/
def FLT_MAX : Flt := fin (3402823466 * 10 ^ 29)

/-! ## The traversal -/

/-- The variables the loop changes: the current cell and the per-axis distance
to the next cell boundary. -/
structure State where
  XYZ : vec2
  nextXYZ : vec2
deriving DecidableEq

/-- Lines 203-206: `stepXYZ[c] = rd[c] < 0 ? -1 : 1`. -/
def stepOf (rd : vec2) : vec2 :=
  ⟨if Flt.lt rd.x 0 then -1 else 1, if Flt.lt rd.y 0 then -1 else 1⟩

/-- Lines 208-224: the per-axis distance between two cell boundaries.  The
debug branch tests each component with `is_eq` and uses `FLT_MAX` for a zero
one; the release branch divides. -/
def deltaOf (debug : Bool) (is_eq : Flt → Flt → Bool) (rd stepXYZ : vec2) : vec2 :=
  if debug then
    ⟨if is_eq rd.x 0 then FLT_MAX else stepXYZ.x / rd.x,
     if is_eq rd.y 0 then FLT_MAX else stepXYZ.y / rd.y⟩
  else
    stepXYZ / rd

/-- Line 225: `nextXYZ = -stepXYZ * (ro - XYZ) * deltaXYZ + max(stepXYZ, 0) * deltaXYZ`,
where `ro` is the origin after `ro += EPSILON`. -/
def nextOf (stepXYZ ro XYZ deltaXYZ : vec2) : vec2 :=
  -stepXYZ * (ro - XYZ) * deltaXYZ + vec2.max stepXYZ (vec2.splat 0) * deltaXYZ

/-- Lines 229-232: the loop guard. -/
def inGrid (world_size : Flt) (XYZ : vec2) : Bool :=
  Flt.lt XYZ.x world_size && Flt.lt XYZ.y world_size && Flt.ge XYZ.x 0 && Flt.ge XYZ.y 0

/-- Lines 238-241: the choice of the axis to step. -/
def maskOf (nextXYZ : vec2) : vec2 :=
  if Flt.lt nextXYZ.x nextXYZ.y then ⟨1, 0⟩ else ⟨0, 1⟩

/-- Lines 238-246: one execution of the loop body after the cell has been
painted. -/
def body (stepXYZ deltaXYZ : vec2) (s : State) : State :=
  let mask := maskOf s.nextXYZ
  { nextXYZ := s.nextXYZ + mask * deltaXYZ
    XYZ := s.XYZ + mask * stepXYZ }

/-- Lines 229-247: the while loop.  The result lists the state at the start of
every iteration, that is, the painted cell together with the `nextXYZ` the
iteration compares.  `none` means that `fuel` iterations were not enough to
leave the loop. -/
def loop (world_size : Flt) (stepXYZ deltaXYZ : vec2) : Nat → State → Option (List State)
  | 0, s => if inGrid world_size s.XYZ then none else some []
  | fuel + 1, s =>
    if inGrid world_size s.XYZ then
      (loop world_size stepXYZ deltaXYZ fuel (body stepXYZ deltaXYZ s)).map (s :: ·)
    else some []

/-- What one frame computes: the end point `rf` of the drawn ray and the
iterations of the traversal loop. -/
structure Frame where
  rf : vec2
  trace : List State
deriving DecidableEq

/-- The state at loop entry, lines 199-225. -/
def initial (debug : Bool) (is_eq : Flt → Flt → Bool) (ro rd : vec2) : State :=
  let XYZ := vec2.floor ro
  let ro := ro + vec2.splat EPSILON
  let stepXYZ := stepOf rd
  let deltaXYZ := deltaOf debug is_eq rd stepXYZ
  { XYZ := XYZ, nextXYZ := nextOf stepXYZ ro XYZ deltaXYZ }

/-- Lines 190-247 for a world of `world_size` cells a side (64 in the program),
origin `ro` (`(16.5, 16)` in the program), direction `rd` (in the program the
normalised vector from the origin to the mouse) and length `len` (30 in the
program). -/
def display (debug : Bool) (is_eq : Flt → Flt → Bool) (world_size : Nat) (ro rd : vec2)
    (len : Flt) (fuel : Nat) : Option Frame :=
  let rf := ro + rd * vec2.splat len
  let stepXYZ := stepOf rd
  let deltaXYZ := deltaOf debug is_eq rd stepXYZ
  (loop (fin world_size) stepXYZ deltaXYZ fuel (initial debug is_eq ro rd)).map
    fun tr => { rf := rf, trace := tr }

/-- The cells painted in one frame, in order. -/
def cells (f : Frame) : List vec2 := f.trace.map State.XYZ

/-! ## Vocabulary of the properties -/

/-- The list `tr` holds the iterations of the loop started in state `s`: the
guard holds at every listed state, each state is the loop body applied to the
one before, and the guard fails after the last. -/
def IsTrace (world_size : Flt) (stepXYZ deltaXYZ : vec2) : State → List State → Prop
  | s, [] => inGrid world_size s.XYZ = false
  | s, a :: tr => a = s ∧ inGrid world_size s.XYZ = true ∧
      IsTrace world_size stepXYZ deltaXYZ (body stepXYZ deltaXYZ s) tr

/-- The cell with integer coordinates `p`. -/
def cellOf (p : ℤ × ℤ) : vec2 := ⟨fin p.1, fin p.2⟩

/-- The vector `v` has the components `sx` and `sy`, each `1` or `-1`. -/
def SignVec (v : vec2) (sx sy : ℤ) : Prop :=
  (sx = 1 ∨ sx = -1) ∧ (sy = 1 ∨ sy = -1) ∧ v = ⟨fin sx, fin sy⟩

/-- A path of grid cells that starts in `(i, j)` and moves in every step by
`sx` along x or by `sy` along y. -/
def IntPath (W sx sy : ℤ) : ℤ → ℤ → List (ℤ × ℤ) → Prop
  | _, _, [] => True
  | i, j, p :: rest => p = (i, j) ∧ 0 ≤ i ∧ i < W ∧ 0 ≤ j ∧ j < W ∧
      (IntPath W sx sy (i + sx) j rest ∨ IntPath W sx sy i (j + sy) rest)

/-- Two integer cells share an edge: they differ by one along exactly one axis. -/
def Adjacent (a b : ℤ × ℤ) : Prop :=
  Xor' (|a.1 - b.1| = 1 ∧ a.2 = b.2) (a.1 = b.1 ∧ |a.2 - b.2| = 1)

/-- The number of steps left along one axis before the cell leaves the grid. -/
def room (W s i : ℤ) : ℤ := if s = 1 then W - i else i + 1

/-- Two cells share an edge: both have integer coordinates, and they differ by
one along exactly one axis. -/
def adjacent (a b : vec2) : Prop :=
  ∃ p q : ℤ × ℤ, a = cellOf p ∧ b = cellOf q ∧ Adjacent p q

/-- Adding zero times `d` leaves `n` as it is: `d` is finite, or `n` is `NaN`. -/
def Flt.Steady (d n : Flt) : Prop := n + fin 0 * d = n

/-- Both components of `nextXYZ` are steady for `deltaXYZ`. -/
def SteadyState (de : vec2) (s : State) : Prop :=
  Flt.Steady de.x s.nextXYZ.x ∧ Flt.Steady de.y s.nextXYZ.y

/-- A zero test for the concrete runs of the debug branch: exact comparison.
On the components `0`, `1` and `-1` of the directions used below, a comparison
with a small tolerance gives the same answers. -/
def is_eq_exact : Flt → Flt → Bool
  | fin a, fin b => decide (a = b)
  | pinf, pinf => true
  | ninf, ninf => true
  | _, _ => false

/-- The starting cell in the words of the specification: the origin is nudged
by `EPSILON` in the direction of travel, and floored afterwards. -/
def specStart (ro rd : vec2) : vec2 :=
  vec2.floor (ro + vec2.splat EPSILON * rd)

/-- The sign the program gives a direction component: `-1` below zero, else `1`. -/
def sgn (d : ℚ) : ℤ := if d < 0 then -1 else 1

/-- The value `min(nextXYZ.x, nextXYZ.y)` up to which the ray stays in the
cell of the iteration. -/
def exitTime (s : State) : Flt := Flt.min s.nextXYZ.x s.nextXYZ.y

/-- Every iteration together with the distance at which the ray enters its
cell: `t` for the first iteration, and for every later one the `exitTime` of
the iteration before. -/
def withEntry : Flt → List State → List (Flt × State)
  | _, [] => []
  | t, s :: tr => (t, s) :: withEntry (exitTime s) tr

/-- The distances at which the ray enters the painted cells: `0` for the first
cell, then the smaller of `nextXYZ.x` and `nextXYZ.y` of each iteration. -/
def entryTimes (tr : List State) : List Flt := (withEntry (fin 0) tr).map Prod.fst

/-- The point `p` lies in the closed unit square of the cell `c`. -/
def inSquare (c p : vec2) : Bool :=
  Flt.le c.x p.x && Flt.le p.x (c.x + 1) && Flt.le c.y p.y && Flt.le p.y (c.y + 1)

/-- The point of the ray at distance `t` from the nudged origin. -/
def rayPoint (ro rd : vec2) (t : Flt) : vec2 :=
  ro + vec2.splat EPSILON + rd * vec2.splat t

/-- The state of one axis: `nxt` is the distance at which the ray reaches the
boundary the cell `i` has in the direction of travel, and the entry distance
`t` lies between the two boundaries of the cell. -/
def AxisInv (o d e : ℚ) (s : ℤ) (i : ℤ) (nxt t : ℚ) : Prop :=
  nxt * d = i + ((s : ℚ) + 1) / 2 - o ∧ nxt - e ≤ t ∧ t ≤ nxt

/-- The invariant of the loop on finite values: the state is finite, and both
axes satisfy `AxisInv` for the entry distance `t`. -/
def Cov (ox oy dx dy : ℚ) (t : Flt) (s : State) : Prop :=
  ∃ (t0 : ℚ) (i j : ℤ) (nx ny : ℚ), t = fin t0 ∧ s = ⟨⟨fin i, fin j⟩, ⟨fin nx, fin ny⟩⟩ ∧
    AxisInv ox dx ((sgn dx : ℤ) / dx) (sgn dx) i nx t0 ∧
    AxisInv oy dy ((sgn dy : ℤ) / dy) (sgn dy) j ny t0

/-- Both components of `nextXYZ` are finite. -/
def FinNext (s : State) : Prop := ∃ nx ny : ℚ, s.nextXYZ = ⟨fin nx, fin ny⟩

/-! ## Arithmetic facts -/

namespace Flt

@[simp] theorem ofNat_eq (n : Nat) [n.AtLeastTwo] : (OfNat.ofNat n : Flt) = fin (OfNat.ofNat n) := rfl
@[simp] theorem zero_eq : (0 : Flt) = fin 0 := by
  show fin ((0 : Nat) : ℚ) = fin 0
  simp
@[simp] theorem one_eq : (1 : Flt) = fin 1 := by
  show fin ((1 : Nat) : ℚ) = fin 1
  simp
@[simp] theorem neg_fin (a : ℚ) : -(fin a) = fin (-a) := rfl
@[simp] theorem add_fin (a b : ℚ) : fin a + fin b = fin (a + b) := rfl
@[simp] theorem sub_fin (a b : ℚ) : fin a - fin b = fin (a - b) := by
  show add (fin a) (neg (fin b)) = _
  simp [add, neg, sub_eq_add_neg]
@[simp] theorem mul_fin (a b : ℚ) : fin a * fin b = fin (a * b) := rfl
@[simp] theorem lt_fin (a b : ℚ) : lt (fin a) (fin b) = decide (a < b) := rfl
@[simp] theorem le_fin (a b : ℚ) : le (fin a) (fin b) = decide (a ≤ b) := rfl
@[simp] theorem ge_fin (a b : ℚ) : ge (fin a) (fin b) = decide (b ≤ a) := rfl
@[simp] theorem floor_fin (a : ℚ) : floor (fin a) = fin (⌊a⌋ : ℤ) := rfl

theorem div_fin (a b : ℚ) (hb : b ≠ 0) : fin a / fin b = fin (a / b) := by
  show div (fin a) (fin b) = _
  simp [div, hb]

/-- Adding the product of zero and a finite value changes nothing. -/
theorem add_zero_fin (x : Flt) : x + fin 0 = x := by
  cases x <;> first | rfl | (show fin _ = fin _; simp)

end Flt

/-! ## Traces of the loop -/

theorem loop_isTrace (W : Flt) (st de : vec2) :
    ∀ (fuel : Nat) (s : State) (tr : List State),
      loop W st de fuel s = some tr → IsTrace W st de s tr := by
  intro fuel
  induction fuel with
  | zero =>
    intro s tr h
    unfold loop at h
    by_cases hg : inGrid W s.XYZ = true
    · simp [hg] at h
    · simp only [hg] at h
      simp at h
      subst h
      simpa [IsTrace] using hg
  | succ fuel ih =>
    intro s tr h
    unfold loop at h
    by_cases hg : inGrid W s.XYZ = true
    · simp only [hg, if_true, Option.map_eq_some'] at h
      obtain ⟨tr1, h1, rfl⟩ := h
      exact ⟨rfl, hg, ih _ _ h1⟩
    · simp only [hg] at h
      simp at h
      subst h
      simpa [IsTrace] using hg

/-- More fuel does not change a result. -/
theorem loop_mono (W : Flt) (st de : vec2) :
    ∀ (fuel : Nat) (s : State) (tr : List State) (n : Nat),
      loop W st de fuel s = some tr → loop W st de (fuel + n) s = some tr := by
  intro fuel
  induction fuel with
  | zero =>
    intro s tr n h
    unfold loop at h
    by_cases hg : inGrid W s.XYZ = true
    · simp [hg] at h
    · simp only [hg] at h
      simp at h
      subst h
      cases n <;> simp [loop, hg]
  | succ fuel ih =>
    intro s tr n h
    unfold loop at h
    have e : fuel + 1 + n = (fuel + n) + 1 := by omega
    rw [e]
    unfold loop
    by_cases hg : inGrid W s.XYZ = true
    · simp only [hg, if_true, Option.map_eq_some'] at h ⊢
      obtain ⟨tr1, h1, rfl⟩ := h
      exact ⟨tr1, ih _ _ n h1, rfl⟩
    · simp only [hg] at h ⊢
      simpa using h

/-! ## Cells with integer coordinates -/

theorem cellOf_injective : Function.Injective cellOf := by
  intro p q h
  unfold cellOf at h
  injection h with h1 h2
  injection h1 with h1
  injection h2 with h2
  exact Prod.ext (by exact_mod_cast h1) (by exact_mod_cast h2)

theorem stepOf_sign (rd : vec2) : ∃ sx sy : ℤ, SignVec (stepOf rd) sx sy := by
  unfold stepOf SignVec
  simp only [Flt.zero_eq]
  by_cases hx : Flt.lt rd.x (fin 0) = true <;> by_cases hy : Flt.lt rd.y (fin 0) = true
  · exact ⟨-1, -1, by simp [hx, hy]⟩
  · exact ⟨-1, 1, by simp [hx, hy]⟩
  · exact ⟨1, -1, by simp [hx, hy]⟩
  · exact ⟨1, 1, by simp [hx, hy]⟩

theorem inGrid_cell (W : Nat) (i j : ℤ) :
    inGrid (fin W) ⟨fin i, fin j⟩ = true ↔ (0 ≤ i ∧ i < W) ∧ 0 ≤ j ∧ j < W := by
  unfold inGrid
  simp only [Flt.lt_fin, Flt.ge_fin, Flt.zero_eq, Bool.and_eq_true, decide_eq_true_eq]
  constructor
  · rintro ⟨⟨⟨h1, h2⟩, h3⟩, h4⟩
    exact ⟨⟨by exact_mod_cast h3, by exact_mod_cast h1⟩, by exact_mod_cast h4, by exact_mod_cast h2⟩
  · rintro ⟨⟨h3, h1⟩, h4, h2⟩
    exact ⟨⟨⟨by exact_mod_cast h1, by exact_mod_cast h2⟩, by exact_mod_cast h3⟩, by exact_mod_cast h4⟩

/-- The loop body moves an integer cell by one step along one axis. -/
theorem body_cell (st de : vec2) (sx sy : ℤ) (hs : SignVec st sx sy) (s : State) (i j : ℤ)
    (hc : s.XYZ = ⟨fin i, fin j⟩) :
    (body st de s).XYZ = (if Flt.lt s.nextXYZ.x s.nextXYZ.y then ⟨fin (i + sx : ℤ), fin j⟩
      else ⟨fin i, fin (j + sy : ℤ)⟩) := by
  obtain ⟨-, -, rfl⟩ := hs
  unfold body maskOf
  by_cases h : Flt.lt s.nextXYZ.x s.nextXYZ.y = true
  · simp only [h, if_true, hc]
    show (⟨fin i + 1 * fin sx, fin j + 0 * fin sy⟩ : vec2) = _
    simp
  · simp only [h, hc]
    show (⟨fin i + 0 * fin sx, fin j + 1 * fin sy⟩ : vec2) = _
    simp

/-- The cells of a trace that starts in an integer cell form an integer path. -/
theorem trace_path (W : Nat) (st de : vec2) (sx sy : ℤ) (hs : SignVec st sx sy) :
    ∀ (tr : List State) (s : State) (i j : ℤ), s.XYZ = ⟨fin i, fin j⟩ →
      IsTrace (fin W) st de s tr →
      ∃ path, tr.map State.XYZ = path.map cellOf ∧ IntPath W sx sy i j path := by
  intro tr
  induction tr with
  | nil => intro s i j _ _; exact ⟨[], rfl, trivial⟩
  | cons a tr ih =>
    intro s i j hc ht
    obtain ⟨rfl, hg, ht⟩ := ht
    have hb := body_cell st de sx sy hs a i j hc
    rw [hc, inGrid_cell] at hg
    by_cases h : Flt.lt a.nextXYZ.x a.nextXYZ.y = true
    · simp only [h, if_true] at hb
      obtain ⟨path, hp, hq⟩ := ih _ _ _ hb ht
      refine ⟨(i, j) :: path, ?_, rfl, hg.1.1, hg.1.2, hg.2.1, hg.2.2, Or.inl hq⟩
      simp [hp, hc, cellOf]
    · simp only [h] at hb
      obtain ⟨path, hp, hq⟩ := ih _ _ _ hb ht
      refine ⟨(i, j) :: path, ?_, rfl, hg.1.1, hg.1.2, hg.2.1, hg.2.2, Or.inr hq⟩
      simp [hp, hc, cellOf]

theorem adjacent_x (i j sx : ℤ) (hx : sx = 1 ∨ sx = -1) : Adjacent (i, j) (i + sx, j) := by
  unfold Adjacent Xor'
  left
  rcases hx with rfl | rfl <;> simp

theorem adjacent_y (i j sy : ℤ) (hy : sy = 1 ∨ sy = -1) : Adjacent (i, j) (i, j + sy) := by
  unfold Adjacent Xor'
  right
  rcases hy with rfl | rfl <;> simp

theorem IntPath.head_eq {W sx sy i j : ℤ} {p : ℤ × ℤ} {rest : List (ℤ × ℤ)}
    (h : IntPath W sx sy i j (p :: rest)) : p = (i, j) := h.1

theorem IntPath.mem_grid {W sx sy : ℤ} :
    ∀ (path : List (ℤ × ℤ)) (i j : ℤ), IntPath W sx sy i j path →
      ∀ p ∈ path, (0 ≤ p.1 ∧ p.1 < W) ∧ 0 ≤ p.2 ∧ p.2 < W := by
  intro path
  induction path with
  | nil => intro i j _ p hp; simp at hp
  | cons a rest ih =>
    intro i j h p hp
    obtain ⟨rfl, h1, h2, h3, h4, h5⟩ := h
    rcases List.mem_cons.1 hp with rfl | hp
    · exact ⟨⟨h1, h2⟩, h3, h4⟩
    · rcases h5 with h5 | h5
      · exact ih _ _ h5 p hp
      · exact ih _ _ h5 p hp

theorem IntPath.chain {W sx sy : ℤ} (hx : sx = 1 ∨ sx = -1) (hy : sy = 1 ∨ sy = -1) :
    ∀ (path : List (ℤ × ℤ)) (i j : ℤ), IntPath W sx sy i j path → List.Chain' Adjacent path := by
  intro path
  induction path with
  | nil => intro i j _; exact List.chain'_nil
  | cons a rest ih =>
    intro i j h
    obtain ⟨rfl, -, -, -, -, h5⟩ := h
    cases rest with
    | nil => exact List.chain'_singleton _
    | cons b rest =>
      rcases h5 with h5 | h5
      · have hb := h5.head_eq
        subst hb
        exact List.Chain'.cons (adjacent_x i j sx hx) (ih _ _ h5)
      · have hb := h5.head_eq
        subst hb
        exact List.Chain'.cons (adjacent_y i j sy hy) (ih _ _ h5)

/-- Along a path the quantity `sx * x + sy * y` never decreases. -/
theorem IntPath.potential_le {W sx sy : ℤ} (hx : sx = 1 ∨ sx = -1) (hy : sy = 1 ∨ sy = -1) :
    ∀ (path : List (ℤ × ℤ)) (i j : ℤ), IntPath W sx sy i j path →
      ∀ p ∈ path, sx * i + sy * j ≤ sx * p.1 + sy * p.2 := by
  intro path
  induction path with
  | nil => intro i j _ p hp; simp at hp
  | cons a rest ih =>
    intro i j h p hp
    obtain ⟨rfl, -, -, -, -, h5⟩ := h
    rcases List.mem_cons.1 hp with rfl | hp
    · exact le_refl _
    · rcases h5 with h5 | h5
      · have := ih _ _ h5 p hp
        rcases hx with rfl | rfl <;> linarith
      · have := ih _ _ h5 p hp
        rcases hy with rfl | rfl <;> linarith

theorem IntPath.nodup {W sx sy : ℤ} (hx : sx = 1 ∨ sx = -1) (hy : sy = 1 ∨ sy = -1) :
    ∀ (path : List (ℤ × ℤ)) (i j : ℤ), IntPath W sx sy i j path → path.Nodup := by
  intro path
  induction path with
  | nil => intro i j _; exact List.nodup_nil
  | cons a rest ih =>
    intro i j h
    obtain ⟨rfl, -, -, -, -, h5⟩ := h
    refine List.nodup_cons.2 ⟨fun hmem => ?_, ?_⟩
    · rcases h5 with h5 | h5
      · have := IntPath.potential_le hx hy _ _ _ h5 _ hmem
        rcases hx with rfl | rfl <;> (simp at this; try linarith)
      · have := IntPath.potential_le hx hy _ _ _ h5 _ hmem
        rcases hy with rfl | rfl <;> (simp at this; try linarith)
    · rcases h5 with h5 | h5
      · exact ih _ _ h5
      · exact ih _ _ h5

theorem room_step (W s i : ℤ) (hs : s = 1 ∨ s = -1) : room W s (i + s) = room W s i - 1 := by
  rcases hs with rfl | rfl <;> (simp [room]; try ring)

theorem room_pos (W s i : ℤ) (h0 : 0 ≤ i) (h1 : i < W) : 1 ≤ room W s i ∧ room W s i ≤ W := by
  unfold room
  split <;> constructor <;> omega

theorem IntPath.length_le {W sx sy : ℤ} (hx : sx = 1 ∨ sx = -1) (hy : sy = 1 ∨ sy = -1) :
    ∀ (path : List (ℤ × ℤ)) (i j : ℤ), IntPath W sx sy i j path → path ≠ [] →
      (path.length : ℤ) + 1 ≤ room W sx i + room W sy j := by
  intro path
  induction path with
  | nil => intro i j _ h; exact absurd rfl h
  | cons a rest ih =>
    intro i j h _
    obtain ⟨rfl, h1, h2, h3, h4, h5⟩ := h
    have rx := room_pos W sx i h1 h2
    have ry := room_pos W sy j h3 h4
    by_cases hr : rest = []
    · subst hr
      simp
      omega
    · rcases h5 with h5 | h5
      · have := ih _ _ h5 hr
        rw [room_step W sx i hx] at this
        simp only [List.length_cons, Nat.cast_add, Nat.cast_one]
        omega
      · have := ih _ _ h5 hr
        rw [room_step W sy j hy] at this
        simp only [List.length_cons, Nat.cast_add, Nat.cast_one]
        omega

/-- A path in a grid of side `W` has at most `W + W` cells. -/
theorem IntPath.length_le_grid {W sx sy : ℤ} (hW : 0 ≤ W) (hx : sx = 1 ∨ sx = -1)
    (hy : sy = 1 ∨ sy = -1) (path : List (ℤ × ℤ)) (i j : ℤ) (h : IntPath W sx sy i j path) :
    (path.length : ℤ) ≤ W + W := by
  cases path with
  | nil => simp; omega
  | cons a rest =>
    have hl := IntPath.length_le hx hy _ _ _ h (List.cons_ne_nil _ _)
    obtain ⟨rfl, h1, h2, h3, h4, -⟩ := h
    have rx := room_pos W sx i h1 h2
    have ry := room_pos W sy j h3 h4
    omega

/-! ## Termination -/

theorem loop_of_not_inGrid (W : Flt) (st de : vec2) (fuel : Nat) (s : State)
    (h : inGrid W s.XYZ = false) : loop W st de fuel s = some [] := by
  cases fuel <;> simp [loop, h]

/-- From an integer cell the loop ends within as many iterations as there is
room along the two axes. -/
theorem loop_terminates (W : Nat) (st de : vec2) (sx sy : ℤ) (hs : SignVec st sx sy) :
    ∀ (fuel : Nat) (s : State) (i j : ℤ), s.XYZ = ⟨fin i, fin j⟩ →
      room W sx i + room W sy j ≤ fuel + 1 → ∃ tr, loop (fin W) st de fuel s = some tr := by
  intro fuel
  induction fuel with
  | zero =>
    intro s i j hc hr
    by_cases hg : inGrid (fin W) s.XYZ = true
    · rw [hc, inGrid_cell] at hg
      have rx := room_pos W sx i hg.1.1 hg.1.2
      have ry := room_pos W sy j hg.2.1 hg.2.2
      omega
    · exact ⟨[], loop_of_not_inGrid _ _ _ _ _ (by simpa using hg)⟩
  | succ fuel ih =>
    intro s i j hc hr
    by_cases hg : inGrid (fin W) s.XYZ = true
    · have hb := body_cell st de sx sy hs s i j hc
      have hg2 := hg
      rw [hc, inGrid_cell] at hg2
      have rx := room_pos W sx i hg2.1.1 hg2.1.2
      have ry := room_pos W sy j hg2.2.1 hg2.2.2
      have : ∃ tr, loop (fin W) st de fuel (body st de s) = some tr := by
        by_cases h : Flt.lt s.nextXYZ.x s.nextXYZ.y = true
        · simp only [h, if_true] at hb
          apply ih _ _ _ hb
          rw [room_step W sx i hs.1]
          push_cast at hr ⊢
          omega
        · simp only [h] at hb
          apply ih _ _ _ hb
          rw [room_step W sy j hs.2.1]
          push_cast at hr ⊢
          omega
      obtain ⟨tr, htr⟩ := this
      exact ⟨s :: tr, by simp [loop, hg, htr]⟩
    · exact ⟨[], loop_of_not_inGrid _ _ _ _ _ (by simpa using hg)⟩

/-- The starting cell has integer coordinates or fails the guard. -/
theorem floor_cell_or_out (W : Flt) (ro : vec2) :
    (∃ i j : ℤ, vec2.floor ro = ⟨fin i, fin j⟩) ∨ inGrid W (vec2.floor ro) = false := by
  obtain ⟨x, y⟩ := ro
  cases x <;> cases y <;>
    first
    | exact Or.inl ⟨_, _, rfl⟩
    | (right; cases W <;> simp [vec2.floor, Flt.floor, inGrid, Flt.lt, Flt.ge, Flt.le])

/-- One frame: with `world_size + world_size` iterations of fuel, and with any
more, the loop is left, and the painted cells form an integer path along the
step vector. -/
theorem display_run (debug : Bool) (is_eq : Flt → Flt → Bool) (W : Nat) (ro rd : vec2)
    (len : Flt) (n : Nat) :
    ∃ f, display debug is_eq W ro rd len (W + W + n) = some f ∧
      IsTrace (fin W) (stepOf rd) (deltaOf debug is_eq rd (stepOf rd))
        (initial debug is_eq ro rd) f.trace ∧
      ∃ sx sy i j path, (sx = 1 ∨ sx = -1) ∧ (sy = 1 ∨ sy = -1) ∧
        cells f = path.map cellOf ∧ IntPath W sx sy i j path := by
  obtain ⟨sx, sy, hs⟩ := stepOf_sign rd
  have key : ∃ tr, loop (fin W) (stepOf rd) (deltaOf debug is_eq rd (stepOf rd)) (W + W + n)
      (initial debug is_eq ro rd) = some tr ∧
      ∃ i j path, tr.map State.XYZ = path.map cellOf ∧ IntPath W sx sy i j path := by
    have hinit : (initial debug is_eq ro rd).XYZ = vec2.floor ro := rfl
    by_cases hg : inGrid (fin W) (vec2.floor ro) = true
    · rcases floor_cell_or_out (fin W) ro with ⟨i, j, hc⟩ | hout
      · have hg2 := hg
        rw [hc, inGrid_cell] at hg2
        have rx := room_pos W sx i hg2.1.1 hg2.1.2
        have ry := room_pos W sy j hg2.2.1 hg2.2.2
        obtain ⟨tr, htr⟩ := loop_terminates W _ (deltaOf debug is_eq rd (stepOf rd)) sx sy hs
          (W + W + n) (initial debug is_eq ro rd) i j (hinit.trans hc) (by push_cast; omega)
        obtain ⟨path, hp, hq⟩ := trace_path W _ _ sx sy hs tr _ i j (hinit.trans hc)
          (loop_isTrace _ _ _ _ _ _ htr)
        exact ⟨tr, htr, i, j, path, hp, hq⟩
      · rw [hout] at hg
        exact absurd hg (by simp)
    · refine ⟨[], loop_of_not_inGrid _ _ _ _ _ ?_, 0, 0, [], rfl, trivial⟩
      rw [hinit]
      simpa using hg
  obtain ⟨tr, htr, i, j, path, hp, hq⟩ := key
  refine ⟨⟨ro + rd * vec2.splat len, tr⟩, ?_, loop_isTrace _ _ _ _ _ _ htr, sx, sy, i, j, path,
    hs.1, hs.2.1, hp, hq⟩
  simp [display, htr]

/-! ## Structure of the painted cells -/

theorem chain_cellOf (path : List (ℤ × ℤ)) (h : List.Chain' Adjacent path) :
    List.Chain' adjacent (path.map cellOf) := by
  rw [List.chain'_map]
  exact h.imp fun {a b} hab => ⟨a, b, rfl, rfl, hab⟩

/-- C2 (termination bound): for every build, zero test, world size, origin,
direction and length, `world_size + world_size` iterations of fuel (or any
larger amount) are enough for the loop to be left, and at most
`world_size + world_size` cells are painted.  The world of the program is a
square, so width and height are both `world_size`. -/
theorem C2_termination (debug : Bool) (is_eq : Flt → Flt → Bool) (world_size : Nat)
    (ro rd : vec2) (len : Flt) (n : Nat) :
    ∃ f, display debug is_eq world_size ro rd len (world_size + world_size + n) = some f ∧
      (cells f).length ≤ world_size + world_size := by
  obtain ⟨f, hf, -, sx, sy, i, j, path, hx, hy, hp, hq⟩ :=
    display_run debug is_eq world_size ro rd len n
  refine ⟨f, hf, ?_⟩
  have := IntPath.length_le_grid (Int.natCast_nonneg world_size) hx hy path i j hq
  rw [hp, List.length_map]
  exact_mod_cast this

/-- C3 (step adjacency): any two cells painted one after the other have integer
coordinates and satisfy exactly one of `|a.x - b.x| = 1 ∧ a.y = b.y` and
`a.x = b.x ∧ |a.y - b.y| = 1`. -/
theorem C3_step_adjacency (debug : Bool) (is_eq : Flt → Flt → Bool) (world_size : Nat)
    (ro rd : vec2) (len : Flt) (n : Nat) :
    ∃ f, display debug is_eq world_size ro rd len (world_size + world_size + n) = some f ∧
      List.Chain' adjacent (cells f) := by
  obtain ⟨f, hf, -, sx, sy, i, j, path, hx, hy, hp, hq⟩ :=
    display_run debug is_eq world_size ro rd len n
  refine ⟨f, hf, ?_⟩
  rw [hp]
  exact chain_cellOf path (IntPath.chain hx hy path i j hq)

/-- C4 (no revisits): the painted cells are pairwise distinct. -/
theorem C4_no_revisit (debug : Bool) (is_eq : Flt → Flt → Bool) (world_size : Nat)
    (ro rd : vec2) (len : Flt) (n : Nat) :
    ∃ f, display debug is_eq world_size ro rd len (world_size + world_size + n) = some f ∧
      (cells f).Nodup := by
  obtain ⟨f, hf, -, sx, sy, i, j, path, hx, hy, hp, hq⟩ :=
    display_run debug is_eq world_size ro rd len n
  refine ⟨f, hf, ?_⟩
  rw [hp]
  exact (IntPath.nodup hx hy path i j hq).map cellOf_injective

/-- C5 (containment): every painted cell has integer coordinates `(i, j)` with
`0 ≤ i < world_size` and `0 ≤ j < world_size`. -/
theorem C5_containment (debug : Bool) (is_eq : Flt → Flt → Bool) (world_size : Nat)
    (ro rd : vec2) (len : Flt) (n : Nat) :
    ∃ f, display debug is_eq world_size ro rd len (world_size + world_size + n) = some f ∧
      ∀ c ∈ cells f, ∃ i j : ℤ, c = ⟨fin i, fin j⟩ ∧
        (0 ≤ i ∧ i < world_size) ∧ 0 ≤ j ∧ j < world_size := by
  obtain ⟨f, hf, -, sx, sy, i, j, path, hx, hy, hp, hq⟩ :=
    display_run debug is_eq world_size ro rd len n
  refine ⟨f, hf, ?_⟩
  intro c hc
  rw [hp, List.mem_map] at hc
  obtain ⟨p, hp1, rfl⟩ := hc
  exact ⟨p.1, p.2, rfl, IntPath.mem_grid path i j hq p hp1⟩

/-! ## The tie-break -/

namespace Flt

theorem lt_irrefl (a : Flt) : lt a a = false := by
  cases a <;> simp [lt]

theorem one_mul (a : Flt) : fin 1 * a = a := by
  cases a with
  | fin q => simp
  | pinf => show infTimes 1 true = pinf; simp [infTimes]
  | ninf => show infTimes 1 false = ninf; simp [infTimes]
  | nan => rfl

theorem Steady.add_zero {d n : Flt} (h : Steady d n) : Steady d (n + fin 0 * d) := by
  unfold Steady at h ⊢
  rw [h, h]

theorem Steady.add_one {d n : Flt} (h : Steady d n) : Steady d (n + fin 1 * d) := by
  rw [one_mul]
  cases d with
  | fin q =>
    unfold Steady
    rw [mul_fin, zero_mul, add_zero_fin]
  | pinf =>
    have h0 : fin 0 * pinf = nan := by show infTimes 0 true = nan; simp [infTimes]
    unfold Steady at h ⊢
    rw [h0] at h ⊢
    cases n <;> first | rfl | exact absurd h (by simp [HAdd.hAdd, Add.add, add])
  | ninf =>
    have h0 : fin 0 * ninf = nan := by show infTimes 0 false = nan; simp [infTimes]
    unfold Steady at h ⊢
    rw [h0] at h ⊢
    cases n <;> first | rfl | exact absurd h (by simp [HAdd.hAdd, Add.add, add])
  | nan =>
    unfold Steady at h ⊢
    cases n <;> rfl

theorem Steady.of_fin (q : ℚ) (n : Flt) : Steady (fin q) n := by
  unfold Steady
  rw [mul_fin, zero_mul, add_zero_fin]

theorem Steady.of_nan (d : Flt) : Steady d nan := by
  unfold Steady
  cases d <;> rfl

@[simp] theorem mul_fin_pinf (a : ℚ) : fin a * pinf = infTimes a true := rfl
@[simp] theorem mul_fin_ninf (a : ℚ) : fin a * ninf = infTimes a false := rfl
@[simp] theorem mul_nan (a : Flt) : a * nan = nan := by cases a <;> rfl
@[simp] theorem nan_mul (a : Flt) : nan * a = nan := by cases a <;> rfl
@[simp] theorem add_nan (a : Flt) : a + nan = nan := by cases a <;> rfl
@[simp] theorem nan_add (a : Flt) : nan + a = nan := by cases a <;> rfl
@[simp] theorem pinf_add_ninf : pinf + ninf = nan := rfl
@[simp] theorem ninf_add_pinf : ninf + pinf = nan := rfl

/-- The offset `(ro + EPSILON) - floor(ro)` of line 225 is positive or `NaN`. -/
theorem nudge_offset (x : Flt) :
    (∃ r : ℚ, 0 < r ∧ (x + fin (1 / 1000)) - x.floor = fin r) ∨
      (x + fin (1 / 1000)) - x.floor = nan := by
  cases x with
  | fin q =>
    left
    refine ⟨q + 1 / 1000 - (⌊q⌋ : ℤ), ?_, by simp⟩
    have := Int.floor_le q
    linarith
  | pinf => right; rfl
  | ninf => right; rfl
  | nan => right; rfl

/-- The initial `nextXYZ` of an axis is steady for the `deltaXYZ` of that axis. -/
theorem Steady.initial (s f d : Flt) (hs : s = fin 1 ∨ s = fin (-1))
    (hf : (∃ r : ℚ, 0 < r ∧ f = fin r) ∨ f = nan) :
    Steady d (-s * f * d + max s (fin 0) * d) := by
  cases d with
  | fin q => exact Steady.of_fin _ _
  | nan => simp [Steady.of_nan]
  | pinf =>
    rcases hf with ⟨r, hr, rfl⟩ | rfl
    · rcases hs with rfl | rfl <;>
        norm_num [max, infTimes, hr, hr.le, hr.ne', not_lt.2 hr.le, Steady.of_nan]
    · rcases hs with rfl | rfl <;> norm_num [max, infTimes, Steady.of_nan]
  | ninf =>
    rcases hf with ⟨r, hr, rfl⟩ | rfl
    · rcases hs with rfl | rfl <;>
        norm_num [max, infTimes, hr, hr.le, hr.ne', not_lt.2 hr.le, Steady.of_nan]
    · rcases hs with rfl | rfl <;> norm_num [max, infTimes, Steady.of_nan]

end Flt

/-- A property that holds at loop entry and is kept by the loop body holds at
every iteration. -/
theorem trace_invariant (W : Flt) (st de : vec2) (P : State → Prop)
    (hP : ∀ s, P s → P (body st de s)) :
    ∀ (tr : List State) (s : State), P s → IsTrace W st de s tr → ∀ a ∈ tr, P a := by
  intro tr
  induction tr with
  | nil => intro s _ _ a ha; simp at ha
  | cons b tr ih =>
    intro s hs ht a ha
    obtain ⟨rfl, -, ht⟩ := ht
    rcases List.mem_cons.1 ha with rfl | ha
    · exact hs
    · exact ih _ (hP _ hs) ht a ha

/-- In a trace every state is the loop body applied to the state before it. -/
theorem trace_chain (W : Flt) (st de : vec2) :
    ∀ (tr : List State) (s : State), IsTrace W st de s tr →
      List.Chain' (fun a b => b = body st de a) tr := by
  intro tr
  induction tr with
  | nil => intro s _; exact List.chain'_nil
  | cons b tr ih =>
    intro s ht
    obtain ⟨rfl, -, ht⟩ := ht
    cases tr with
    | nil => exact List.chain'_singleton _
    | cons c tr =>
      have hc : c = body st de b := ht.1
      exact List.Chain'.cons hc (ih _ ht)

theorem stepOf_x (rd : vec2) : (stepOf rd).x = fin 1 ∨ (stepOf rd).x = fin (-1) := by
  unfold stepOf
  by_cases h : Flt.lt rd.x 0 = true
  · right; simp only [h, if_true]; rfl
  · left; simp only [h]; simp

theorem stepOf_y (rd : vec2) : (stepOf rd).y = fin 1 ∨ (stepOf rd).y = fin (-1) := by
  unfold stepOf
  by_cases h : Flt.lt rd.y 0 = true
  · right; simp only [h, if_true]; rfl
  · left; simp only [h]; simp

theorem initial_steady (debug : Bool) (is_eq : Flt → Flt → Bool) (ro rd : vec2) :
    SteadyState (deltaOf debug is_eq rd (stepOf rd)) (initial debug is_eq ro rd) := by
  constructor
  · exact Flt.Steady.initial (stepOf rd).x _ _ (stepOf_x rd) (Flt.nudge_offset ro.x)
  · exact Flt.Steady.initial (stepOf rd).y _ _ (stepOf_y rd) (Flt.nudge_offset ro.y)

theorem body_steady (st de : vec2) (s : State) (h : SteadyState de s) :
    SteadyState de (body st de s) := by
  unfold body maskOf
  by_cases hl : Flt.lt s.nextXYZ.x s.nextXYZ.y = true
  · simp only [hl, if_true]
    exact ⟨by simpa using h.1.add_one, by simpa using h.2.add_zero⟩
  · simp only [hl]
    exact ⟨by simpa using h.1.add_zero, by simpa using h.2.add_one⟩

/-- The loop body when `nextXYZ.x < nextXYZ.y` is false: only the y axis moves. -/
theorem body_of_not_lt (st de : vec2) (s : State) (h : SteadyState de s)
    (hx : st.x = fin 1 ∨ st.x = fin (-1))
    (hl : Flt.lt s.nextXYZ.x s.nextXYZ.y = false) :
    body st de s =
      { XYZ := ⟨s.XYZ.x, s.XYZ.y + st.y⟩, nextXYZ := ⟨s.nextXYZ.x, s.nextXYZ.y + de.y⟩ } := by
  unfold body maskOf
  simp only [hl]
  show ({ XYZ := ⟨s.XYZ.x + 0 * st.x, s.XYZ.y + 1 * st.y⟩,
          nextXYZ := ⟨s.nextXYZ.x + 0 * de.x, s.nextXYZ.y + 1 * de.y⟩ } : State) = _
  have h1 : s.nextXYZ.x + 0 * de.x = s.nextXYZ.x := by simpa [Flt.Steady] using h.1
  have h2 : s.XYZ.x + 0 * st.x = s.XYZ.x := by
    rcases hx with e | e <;> simp [e, Flt.add_zero_fin]
  rw [h1, h2]
  simp [Flt.one_mul]

/-- C10 (tie-break): in every iteration of the loop in which `nextXYZ.x` equals
`nextXYZ.y`, the loop body leaves `XYZ.x` and `nextXYZ.x` as they are, adds
`stepXYZ.y` to `XYZ.y` and adds `deltaXYZ.y` to `nextXYZ.y`; and an iteration
changes `XYZ.x` only if `nextXYZ.x < nextXYZ.y` holds.  Every state of the trace
but the first is the loop body applied to the state before it. -/
theorem C10_tie_break (debug : Bool) (is_eq : Flt → Flt → Bool) (world_size : Nat)
    (ro rd : vec2) (len : Flt) (n : Nat) :
    ∃ f, display debug is_eq world_size ro rd len (world_size + world_size + n) = some f ∧
      List.Chain' (fun a b => b = body (stepOf rd) (deltaOf debug is_eq rd (stepOf rd)) a)
        f.trace ∧
      ∀ s ∈ f.trace,
        (s.nextXYZ.x = s.nextXYZ.y →
          body (stepOf rd) (deltaOf debug is_eq rd (stepOf rd)) s =
            { XYZ := ⟨s.XYZ.x, s.XYZ.y + (stepOf rd).y⟩,
              nextXYZ := ⟨s.nextXYZ.x,
                s.nextXYZ.y + (deltaOf debug is_eq rd (stepOf rd)).y⟩ }) ∧
        ((body (stepOf rd) (deltaOf debug is_eq rd (stepOf rd)) s).XYZ.x ≠ s.XYZ.x →
          Flt.lt s.nextXYZ.x s.nextXYZ.y = true) := by
  obtain ⟨f, hf, ht, -⟩ := display_run debug is_eq world_size ro rd len n
  refine ⟨f, hf, trace_chain _ _ _ _ _ ht, ?_⟩
  intro s hs
  have hst : SteadyState (deltaOf debug is_eq rd (stepOf rd)) s :=
    trace_invariant _ _ _ _ (body_steady _ _) _ _ (initial_steady debug is_eq ro rd) ht s hs
  constructor
  · intro htie
    apply body_of_not_lt _ _ _ hst (stepOf_x rd)
    rw [htie]
    exact Flt.lt_irrefl _
  · intro hne
    by_contra hl
    have hl2 : Flt.lt s.nextXYZ.x s.nextXYZ.y = false := by simpa using hl
    rw [body_of_not_lt _ _ _ hst (stepOf_x rd) hl2] at hne
    exact hne rfl

/-! ## The starting cell, the length, and axis-aligned rays -/

theorem display_cells (debug : Bool) (is_eq : Flt → Flt → Bool) (W : Nat) (ro rd : vec2)
    (len : Flt) (fuel : Nat) :
    (display debug is_eq W ro rd len fuel).map cells =
      (loop (fin W) (stepOf rd) (deltaOf debug is_eq rd (stepOf rd)) fuel
        (initial debug is_eq ro rd)).map (List.map State.XYZ) := by
  unfold display
  simp only [Option.map_map]
  rfl

/-- The loop is left exactly when the guard fails: the state reached after as
many iterations as the trace is long fails the guard. -/
theorem trace_exit (W : Flt) (st de : vec2) :
    ∀ (tr : List State) (s : State), IsTrace W st de s tr →
      inGrid W ((body st de)^[tr.length] s).XYZ = false := by
  intro tr
  induction tr with
  | nil => intro s h; exact h
  | cons b tr ih =>
    intro s ht
    obtain ⟨rfl, -, ht⟩ := ht
    simpa using ih _ ht

/-- C6, as amended: when the floor of the origin is a cell of the grid, it is
the first painted cell.  The origin is floored before `EPSILON` is added to it;
the nudged origin only enters `nextXYZ`. -/
theorem C6_start_is_floor (debug : Bool) (is_eq : Flt → Flt → Bool) (world_size : Nat)
    (ro rd : vec2) (len : Flt) (n : Nat)
    (h : inGrid (fin world_size) (vec2.floor ro) = true) :
    ∃ f, display debug is_eq world_size ro rd len (world_size + world_size + n) = some f ∧
      (cells f).head? = some (vec2.floor ro) := by
  obtain ⟨f, hf, ht, -⟩ := display_run debug is_eq world_size ro rd len n
  refine ⟨f, hf, ?_⟩
  unfold cells
  cases hfe : f.trace with
  | nil =>
    rw [hfe] at ht
    have : inGrid (fin world_size) (vec2.floor ro) = false := ht
    rw [h] at this
    exact absurd this (by simp)
  | cons a tr =>
    rw [hfe] at ht
    obtain ⟨rfl, -, -⟩ := ht
    rfl

/-- C6, witness: the origin of the program, `(16.5, 16)` in the 64 x 64 world. -/
theorem C6_start_is_floor_witness :
    inGrid (fin (64 : Nat)) (vec2.floor ⟨fin (33 / 2), fin 16⟩) = true ∧
    ∃ f, display false is_eq_exact 64 ⟨fin (33 / 2), fin 16⟩ ⟨fin (3 / 5), fin (4 / 5)⟩ (fin 30)
        (64 + 64 + 0) = some f ∧
      (cells f).head? = some (vec2.floor ⟨fin (33 / 2), fin 16⟩) :=
  ⟨by decide!, C6_start_is_floor false is_eq_exact 64 _ _ _ 0 (by decide!)⟩

/-- C6, counterexample: a ray that starts on the cell edge `x = 16` and travels
to the left.  Nudged along its direction and floored, the origin gives the cell
`(15, 16)` the direction points into; the program paints `(16, 16)` first. -/
theorem C6_counterexample :
    (display false is_eq_exact 64 ⟨fin 16, fin (33 / 2)⟩ ⟨fin (-3 / 5), fin (-4 / 5)⟩ (fin 30)
      128).map (fun f => (cells f).head?) = some (some ⟨fin 16, fin 16⟩) ∧
    specStart ⟨fin 16, fin (33 / 2)⟩ ⟨fin (-3 / 5), fin (-4 / 5)⟩ = ⟨fin 15, fin 16⟩ := by
  decide!

/-- C7, as amended: the loop has no length cap.  `len` only gives the end point
`rf` of the drawn ray; the painted cells are the same for any two lengths, and
the loop is left only when the cell fails the guard, that is, outside the
grid.  In the 10 x 10 grid the debug build paints from `(0.5, 0.5)` along
`(1, 0)` the ten cells `x = 0..9`, whatever the length is. -/
theorem C7_no_length_cap (debug : Bool) (is_eq : Flt → Flt → Bool) (world_size : Nat)
    (ro rd : vec2) (len len2 : Flt) (n : Nat) :
    (∃ f g, display debug is_eq world_size ro rd len (world_size + world_size + n) = some f ∧
      display debug is_eq world_size ro rd len2 (world_size + world_size + n) = some g ∧
      f.rf = ro + rd * vec2.splat len ∧
      cells f = cells g ∧
      inGrid (fin world_size)
        ((body (stepOf rd) (deltaOf debug is_eq rd (stepOf rd)))^[(cells f).length]
          (initial debug is_eq ro rd)).XYZ = false) ∧
    (display true is_eq_exact 10 ⟨fin (1 / 2), fin (1 / 2)⟩ ⟨fin 1, fin 0⟩ len 20).map cells =
      some ((List.range 10).map fun k => ⟨fin k, fin 0⟩) := by
  constructor
  · obtain ⟨f, hf, ht, -⟩ := display_run debug is_eq world_size ro rd len n
    obtain ⟨g, hg, -, -⟩ := display_run debug is_eq world_size ro rd len2 n
    refine ⟨f, g, hf, hg, ?_, ?_, ?_⟩
    · unfold display at hf
      simp only [Option.map_eq_some'] at hf
      obtain ⟨tr, -, rfl⟩ := hf
      rfl
    · have e1 := display_cells debug is_eq world_size ro rd len (world_size + world_size + n)
      have e2 := display_cells debug is_eq world_size ro rd len2 (world_size + world_size + n)
      rw [hf] at e1
      rw [hg, ← e1] at e2
      simpa using e2.symm
    · have := trace_exit _ _ _ _ _ ht
      simpa [cells] using this
  · rw [display_cells]
    decide!

/-- C7, counterexample: the witness of the claim.  With length 3.5 the debug
build paints the ten cells `x = 0..9`, not the four cells `x = 0..3`. -/
theorem C7_counterexample :
    (display true is_eq_exact 10 ⟨fin (1 / 2), fin (1 / 2)⟩ ⟨fin 1, fin 0⟩ (fin (7 / 2))
      20).map cells = some ((List.range 10).map fun k => ⟨fin k, fin 0⟩) ∧
    (display true is_eq_exact 10 ⟨fin (1 / 2), fin (1 / 2)⟩ ⟨fin 1, fin 0⟩ (fin (7 / 2))
      20).map cells ≠ some ((List.range 4).map fun k => ⟨fin k, fin 0⟩) := by
  decide!

/-- C8, the two builds at the witness of the claim, the ray from `(16.5, 16)`
along `(1, 0)` in the 64 x 64 world.  In the release branch the division
`1 / 0` gives `deltaXYZ.y = inf`, so `nextXYZ.y = -inf + inf = NaN`, the
comparison `nextXYZ.x < nextXYZ.y` is false in every iteration, and the painted
cells are `(16, 16), (16, 17), ..., (16, 63)`: the column above the origin, not
the row `(16, 16), ..., (63, 16)`.  The debug branch paints the row. -/
theorem C8_release_horizontal :
    (initial false is_eq_exact ⟨fin (33 / 2), fin 16⟩ ⟨fin 1, fin 0⟩).nextXYZ =
      ⟨fin (499 / 1000), nan⟩ ∧
    (display false is_eq_exact 64 ⟨fin (33 / 2), fin 16⟩ ⟨fin 1, fin 0⟩ (fin 30) 128).map cells =
      some ((List.range 48).map fun k => ⟨fin 16, fin (16 + k)⟩) ∧
    (display false is_eq_exact 64 ⟨fin (33 / 2), fin 16⟩ ⟨fin 1, fin 0⟩ (fin 30) 128).map cells ≠
      some ((List.range 48).map fun k => ⟨fin (16 + k), fin 16⟩) ∧
    (display true is_eq_exact 64 ⟨fin (33 / 2), fin 16⟩ ⟨fin 1, fin 0⟩ (fin 30) 128).map cells =
      some ((List.range 48).map fun k => ⟨fin (16 + k), fin 16⟩) := by
  decide!

/-! ## Runs on finite values -/

theorem sgn_cases (d : ℚ) : sgn d = 1 ∨ sgn d = -1 := by
  unfold sgn
  split
  · right; rfl
  · left; rfl

theorem stepOf_fin (dx dy : ℚ) : stepOf ⟨fin dx, fin dy⟩ = ⟨fin (sgn dx), fin (sgn dy)⟩ := by
  unfold stepOf sgn
  simp only [Flt.zero_eq, Flt.lt_fin, decide_eq_true_eq]
  by_cases hx : dx < 0 <;> by_cases hy : dy < 0 <;> simp [hx, hy]

/-- The loop body on a state of finite values. -/
theorem body_fin (sx sy : ℤ) (ex ey : ℚ) (i j : ℤ) (nx ny : ℚ) :
    body ⟨fin sx, fin sy⟩ ⟨fin ex, fin ey⟩ ⟨⟨fin i, fin j⟩, ⟨fin nx, fin ny⟩⟩ =
      if nx < ny then ⟨⟨fin (i + sx : ℤ), fin j⟩, ⟨fin (nx + ex), fin ny⟩⟩
      else ⟨⟨fin i, fin (j + sy : ℤ)⟩, ⟨fin nx, fin (ny + ey)⟩⟩ := by
  unfold body maskOf
  by_cases h : nx < ny
  · simp only [Flt.lt_fin, h, decide_True, if_true]
    show ({ XYZ := ⟨fin i + 1 * fin sx, fin j + 0 * fin sy⟩,
            nextXYZ := ⟨fin nx + 1 * fin ex, fin ny + 0 * fin ey⟩ } : State) = _
    simp
  · simp only [Flt.lt_fin, h, decide_False]
    show ({ XYZ := ⟨fin i + 0 * fin sx, fin j + 1 * fin sy⟩,
            nextXYZ := ⟨fin nx + 0 * fin ex, fin ny + 1 * fin ey⟩ } : State) = _
    simp

theorem exitTime_fin (c : vec2) (nx ny : ℚ) :
    exitTime ⟨c, ⟨fin nx, fin ny⟩⟩ = fin (if nx < ny then nx else ny) := by
  unfold exitTime Flt.min
  by_cases h : nx < ny <;> simp [h]

/-- A property of an entry distance and a state that holds at loop entry and is
kept by the loop body holds at every iteration. -/
theorem withEntry_invariant (W : Flt) (st de : vec2) (P : Flt → State → Prop)
    (hP : ∀ t s, P t s → P (exitTime s) (body st de s)) :
    ∀ (tr : List State) (s : State) (t : Flt), P t s → IsTrace W st de s tr →
      ∀ p ∈ withEntry t tr, P p.1 p.2 := by
  intro tr
  induction tr with
  | nil => intro s t _ _ p hp; simp [withEntry] at hp
  | cons b tr ih =>
    intro s t hs ht p hp
    obtain ⟨rfl, -, ht⟩ := ht
    rcases List.mem_cons.1 hp with rfl | hp
    · exact hs
    · exact ih _ _ (hP _ _ hs) ht p hp

/-! ### One axis -/

theorem sgn_mul (d : ℚ) (hd : d ≠ 0) : ((sgn d : ℤ) : ℚ) / d * d = sgn d := by
  field_simp

theorem sgn_div_pos (d : ℚ) (hd : d ≠ 0) : 0 < ((sgn d : ℤ) : ℚ) / d := by
  unfold sgn
  by_cases h : d < 0
  · simp only [h, if_true]
    push_cast
    exact div_pos_of_neg_of_neg (by norm_num) h
  · simp only [h]
    push_cast
    have : 0 < d := lt_of_le_of_ne (not_lt.1 h) (Ne.symm hd)
    positivity

theorem AxisInv.cover {o d : ℚ} {i : ℤ} {nxt t : ℚ} (hd : d ≠ 0)
    (h : AxisInv o d ((sgn d : ℤ) / d) (sgn d) i nxt t) (τ : ℚ) (h1 : t ≤ τ) (h2 : τ ≤ nxt) :
    (i : ℚ) ≤ o + τ * d ∧ o + τ * d ≤ i + 1 := by
  obtain ⟨hb, hlo, -⟩ := h
  have he := sgn_mul d hd
  have hlo2 : nxt - ((sgn d : ℤ) : ℚ) / d ≤ τ := le_trans hlo h1
  unfold sgn at *
  by_cases hneg : d < 0
  · simp only [hneg, if_true] at hb he hlo2
    push_cast at hb he hlo2
    have a1 : nxt * d ≤ τ * d := mul_le_mul_of_nonpos_right h2 hneg.le
    have a2 : τ * d ≤ (nxt - -1 / d) * d := mul_le_mul_of_nonpos_right hlo2 hneg.le
    rw [sub_mul, he] at a2
    constructor <;> linarith
  · simp only [hneg] at hb he hlo2
    push_cast at hb he hlo2
    have hpos : 0 ≤ d := not_lt.1 hneg
    have a1 : τ * d ≤ nxt * d := mul_le_mul_of_nonneg_right h2 hpos
    have a2 : (nxt - 1 / d) * d ≤ τ * d := mul_le_mul_of_nonneg_right hlo2 hpos
    rw [sub_mul, he] at a2
    constructor <;> linarith

theorem AxisInv.advance {o d : ℚ} {i : ℤ} {nxt t : ℚ} (hd : d ≠ 0)
    (h : AxisInv o d ((sgn d : ℤ) / d) (sgn d) i nxt t) :
    AxisInv o d ((sgn d : ℤ) / d) (sgn d) (i + sgn d) (nxt + (sgn d : ℤ) / d) nxt := by
  obtain ⟨hb, -, -⟩ := h
  have he := sgn_mul d hd
  have hp := sgn_div_pos d hd
  refine ⟨?_, by linarith, by linarith⟩
  rw [add_mul, he, hb]
  push_cast
  ring

theorem AxisInv.keep {o d e : ℚ} {s i : ℤ} {nxt t : ℚ} (h : AxisInv o d e s i nxt t)
    (u : ℚ) (h1 : t ≤ u) (h2 : u ≤ nxt) : AxisInv o d e s i nxt u :=
  ⟨h.1, le_trans h.2.1 h1, h2⟩

/-- The initial `nextXYZ` of an axis, line 225, on finite values. -/
theorem AxisInv.init (o d : ℚ) (hd : d ≠ 0) (ho : ⌊o + 1 / 1000⌋ = ⌊o⌋) :
    AxisInv (o + 1 / 1000) d ((sgn d : ℤ) / d) (sgn d) ⌊o⌋
      (-(sgn d : ℤ) * (o + 1 / 1000 - (⌊o⌋ : ℤ)) * ((sgn d : ℤ) / d) +
        (if ((sgn d : ℤ) : ℚ) < 0 then 0 else ((sgn d : ℤ) : ℚ)) * ((sgn d : ℤ) / d)) 0 := by
  have h1 : ((⌊o⌋ : ℤ) : ℚ) ≤ o + 1 / 1000 := by rw [← ho]; exact Int.floor_le _
  have h2 : o + 1 / 1000 < (⌊o⌋ : ℤ) + 1 := by rw [← ho]; exact Int.lt_floor_add_one _
  have hp := sgn_div_pos d hd
  unfold AxisInv
  unfold sgn at *
  by_cases hneg : d < 0
  · simp only [hneg, if_true] at hp ⊢
    push_cast at hp ⊢
    norm_num
    refine ⟨by field_simp; ring, ?_, ?_⟩
    · have : (o + 1 / 1000 - (⌊o⌋ : ℤ) - 1) * (-1 / d) ≤ 0 :=
        mul_nonpos_of_nonpos_of_nonneg (by linarith) hp.le
      norm_num at this ⊢
      linarith
    · have : 0 ≤ (o + 1 / 1000 - (⌊o⌋ : ℤ)) * (-1 / d) := mul_nonneg (by linarith) hp.le
      norm_num at this ⊢
      linarith
  · simp only [hneg] at hp ⊢
    push_cast at hp ⊢
    norm_num
    refine ⟨by field_simp; ring, ?_, ?_⟩
    · have : 0 ≤ (o + 1 / 1000 - (⌊o⌋ : ℤ)) * (1 / d) := mul_nonneg (by linarith) hp.le
      norm_num at this ⊢
      linarith
    · have : 0 ≤ ((⌊o⌋ : ℤ) + 1 - (o + 1 / 1000)) * (1 / d) := mul_nonneg (by linarith) hp.le
      norm_num at this ⊢
      linarith

/-! ### Coverage -/

theorem Cov.after_body {ox oy dx dy : ℚ} (hdx : dx ≠ 0) (hdy : dy ≠ 0) (t : Flt) (s : State)
    (h : Cov ox oy dx dy t s) :
    Cov ox oy dx dy (exitTime s)
      (body ⟨fin (sgn dx), fin (sgn dy)⟩ ⟨fin ((sgn dx : ℤ) / dx), fin ((sgn dy : ℤ) / dy)⟩ s) := by
  obtain ⟨t0, i, j, nx, ny, rfl, rfl, hx, hy⟩ := h
  rw [body_fin, exitTime_fin]
  by_cases hl : nx < ny
  · simp only [hl, if_true]
    exact ⟨nx, i + sgn dx, j, nx + (sgn dx : ℤ) / dx, ny, rfl, rfl, hx.advance hdx,
      hy.keep nx hx.2.2 hl.le⟩
  · simp only [hl]
    exact ⟨ny, i, j + sgn dy, nx, ny + (sgn dy : ℤ) / dy, rfl, rfl,
      hx.keep ny hy.2.2 (not_lt.1 hl), hy.advance hdy⟩

theorem Flt.max_fin_zero (a : ℚ) : Flt.max (fin a) (fin 0) = fin (if a < 0 then 0 else a) := by
  unfold Flt.max
  by_cases h : a < 0 <;> simp [h]

/-- Line 225 on finite values. -/
theorem nextOf_fin (sx sy : ℤ) (ox oy : ℚ) (i j : ℤ) (ex ey : ℚ) :
    nextOf ⟨fin sx, fin sy⟩ ⟨fin ox, fin oy⟩ ⟨fin i, fin j⟩ ⟨fin ex, fin ey⟩ =
      ⟨fin (-(sx : ℚ) * (ox - i) * ex + (if (sx : ℚ) < 0 then 0 else (sx : ℚ)) * ex),
       fin (-(sy : ℚ) * (oy - j) * ey + (if (sy : ℚ) < 0 then 0 else (sy : ℚ)) * ey)⟩ := by
  unfold nextOf
  show (⟨-fin sx * (fin ox - fin i) * fin ex + Flt.max (fin sx) 0 * fin ex,
         -fin sy * (fin oy - fin j) * fin ey + Flt.max (fin sy) 0 * fin ey⟩ : vec2) = _
  simp only [Flt.zero_eq, Flt.max_fin_zero, Flt.neg_fin, Flt.sub_fin, Flt.mul_fin, Flt.add_fin]

/-- The release branch, and the debug branch when the zero test answers no on
both components, divide. -/
theorem deltaOf_fin (debug : Bool) (is_eq : Flt → Flt → Bool) (dx dy : ℚ)
    (hdx : dx ≠ 0) (hdy : dy ≠ 0)
    (hzero : debug = true → is_eq (fin dx) 0 = false ∧ is_eq (fin dy) 0 = false) :
    deltaOf debug is_eq ⟨fin dx, fin dy⟩ ⟨fin (sgn dx), fin (sgn dy)⟩ =
      ⟨fin ((sgn dx : ℤ) / dx), fin ((sgn dy : ℤ) / dy)⟩ := by
  unfold deltaOf
  cases debug with
  | true =>
    obtain ⟨h1, h2⟩ := hzero rfl
    simp only [if_true, h1, h2, Flt.div_fin _ _ hdx, Flt.div_fin _ _ hdy]
    simp
  | false =>
    show (⟨fin (sgn dx) / fin dx, fin (sgn dy) / fin dy⟩ : vec2) = _
    rw [Flt.div_fin _ _ hdx, Flt.div_fin _ _ hdy]

theorem initial_fin (debug : Bool) (is_eq : Flt → Flt → Bool) (ox oy dx dy ex ey : ℚ)
    (hde : deltaOf debug is_eq ⟨fin dx, fin dy⟩ ⟨fin (sgn dx), fin (sgn dy)⟩ = ⟨fin ex, fin ey⟩) :
    initial debug is_eq ⟨fin ox, fin oy⟩ ⟨fin dx, fin dy⟩ =
      ⟨⟨fin (⌊ox⌋ : ℤ), fin (⌊oy⌋ : ℤ)⟩,
       ⟨fin (-(sgn dx : ℚ) * (ox + 1 / 1000 - (⌊ox⌋ : ℤ)) * ex +
          (if ((sgn dx : ℤ) : ℚ) < 0 then 0 else ((sgn dx : ℤ) : ℚ)) * ex),
        fin (-(sgn dy : ℚ) * (oy + 1 / 1000 - (⌊oy⌋ : ℤ)) * ey +
          (if ((sgn dy : ℤ) : ℚ) < 0 then 0 else ((sgn dy : ℤ) : ℚ)) * ey)⟩⟩ := by
  unfold initial
  simp only [stepOf_fin, hde]
  rw [show (⟨fin ox, fin oy⟩ : vec2) + vec2.splat EPSILON =
    ⟨fin (ox + 1 / 1000), fin (oy + 1 / 1000)⟩ from rfl]
  rw [show vec2.floor ⟨fin ox, fin oy⟩ = ⟨fin (⌊ox⌋ : ℤ), fin (⌊oy⌋ : ℤ)⟩ from rfl]
  rw [nextOf_fin]

theorem floor_nudge (ox oy : ℚ)
    (h : vec2.floor ((⟨fin ox, fin oy⟩ : vec2) + vec2.splat EPSILON) = vec2.floor ⟨fin ox, fin oy⟩) :
    ⌊ox + 1 / 1000⌋ = ⌊ox⌋ ∧ ⌊oy + 1 / 1000⌋ = ⌊oy⌋ := by
  have h2 : (⟨fin ((⌊ox + 1 / 1000⌋ : ℤ) : ℚ), fin ((⌊oy + 1 / 1000⌋ : ℤ) : ℚ)⟩ : vec2) =
      ⟨fin ((⌊ox⌋ : ℤ) : ℚ), fin ((⌊oy⌋ : ℤ) : ℚ)⟩ := h
  injection h2 with h3 h4
  injection h3 with h3
  injection h4 with h4
  exact ⟨by exact_mod_cast h3, by exact_mod_cast h4⟩

theorem Cov.inSquare {ox oy dx dy : ℚ} (hdx : dx ≠ 0) (hdy : dy ≠ 0) (t : Flt) (s : State)
    (h : Cov (ox + 1 / 1000) (oy + 1 / 1000) dx dy t s) (τ : ℚ)
    (h1 : Flt.le t (fin τ) = true) (h2 : Flt.le (fin τ) (exitTime s) = true) :
    inSquare s.XYZ (rayPoint ⟨fin ox, fin oy⟩ ⟨fin dx, fin dy⟩ (fin τ)) = true := by
  obtain ⟨t0, i, j, nx, ny, rfl, rfl, hx, hy⟩ := h
  rw [exitTime_fin] at h2
  simp only [Flt.le_fin, decide_eq_true_eq] at h1 h2
  have h3 : τ ≤ nx := by
    by_cases hl : nx < ny
    · simpa [hl] using h2
    · simp only [hl] at h2
      exact le_trans h2 (not_lt.1 hl)
  have h4 : τ ≤ ny := by
    by_cases hl : nx < ny
    · simp only [hl, if_true] at h2
      exact le_trans h2 hl.le
    · simpa [hl] using h2
  have cx := hx.cover hdx τ h1 h3
  have cy := hy.cover hdy τ h1 h4
  rw [show rayPoint ⟨fin ox, fin oy⟩ ⟨fin dx, fin dy⟩ (fin τ) =
    ⟨fin (ox + 1 / 1000 + dx * τ), fin (oy + 1 / 1000 + dy * τ)⟩ from rfl]
  unfold Raycast.inSquare
  simp only [Flt.one_eq, Flt.add_fin, Flt.le_fin, Bool.and_eq_true, decide_eq_true_eq]
  rw [mul_comm dx, mul_comm dy]
  exact ⟨⟨⟨cx.1, cx.2⟩, cy.1⟩, cy.2⟩

/-- Coverage in exact arithmetic: let both components of the direction be
finite and non-zero (in the debug build: let the zero test answer no on both),
and let the nudged origin lie in the cell of the origin.  Then for every
iteration of the loop, with entry distance `t_k` (`0` for the first iteration,
the `exitTime` of the iteration before for the others) and `t_(k+1)` its own
`exitTime`, every point of the ray at a distance `t` with `t_k ≤ t ≤ t_(k+1)`
lies in the closed unit square of the painted cell.  The proof rests on the
exact sums, products and quotients of `Flt`; it says nothing about the rounded
values the program computes. -/
theorem coverage_exact (debug : Bool) (is_eq : Flt → Flt → Bool) (world_size : Nat)
    (ox oy dx dy : ℚ) (len : Flt) (n : Nat) (hdx : dx ≠ 0) (hdy : dy ≠ 0)
    (hzero : debug = true → is_eq (fin dx) 0 = false ∧ is_eq (fin dy) 0 = false)
    (hcell : vec2.floor ((⟨fin ox, fin oy⟩ : vec2) + vec2.splat EPSILON) =
      vec2.floor ⟨fin ox, fin oy⟩) :
    ∃ f, display debug is_eq world_size ⟨fin ox, fin oy⟩ ⟨fin dx, fin dy⟩ len
        (world_size + world_size + n) = some f ∧
      ∀ p ∈ withEntry (fin 0) f.trace, ∀ t : ℚ,
        Flt.le p.1 (fin t) = true → Flt.le (fin t) (exitTime p.2) = true →
        inSquare p.2.XYZ (rayPoint ⟨fin ox, fin oy⟩ ⟨fin dx, fin dy⟩ (fin t)) = true := by
  obtain ⟨f, hf, ht, -⟩ :=
    display_run debug is_eq world_size ⟨fin ox, fin oy⟩ ⟨fin dx, fin dy⟩ len n
  refine ⟨f, hf, ?_⟩
  obtain ⟨hox, hoy⟩ := floor_nudge ox oy hcell
  have hde := deltaOf_fin debug is_eq dx dy hdx hdy hzero
  rw [stepOf_fin, hde] at ht
  have h0 : Cov (ox + 1 / 1000) (oy + 1 / 1000) dx dy (fin 0)
      (initial debug is_eq ⟨fin ox, fin oy⟩ ⟨fin dx, fin dy⟩) := by
    rw [initial_fin debug is_eq ox oy dx dy _ _ hde]
    exact ⟨0, _, _, _, _, rfl, rfl, AxisInv.init ox dx hdx hox, AxisInv.init oy dy hdy hoy⟩
  intro p hp t h1 h2
  have hc := withEntry_invariant _ _ _ (Cov (ox + 1 / 1000) (oy + 1 / 1000) dx dy)
    (Cov.after_body hdx hdy) _ _ _ h0 ht p hp
  exact Cov.inSquare hdx hdy _ _ hc t h1 h2

/-! ### Monotone distances -/

theorem body_next_fin (st : vec2) (ex ey : ℚ) (s : State) (nx ny : ℚ)
    (h : s.nextXYZ = ⟨fin nx, fin ny⟩) :
    (body st ⟨fin ex, fin ey⟩ s).nextXYZ =
      if nx < ny then ⟨fin (nx + ex), fin ny⟩ else ⟨fin nx, fin (ny + ey)⟩ := by
  unfold body maskOf
  by_cases hl : nx < ny
  · simp only [h, Flt.lt_fin, hl, decide_True, if_true]
    show (⟨fin nx + 1 * fin ex, fin ny + 0 * fin ey⟩ : vec2) = _
    simp
  · simp only [h, Flt.lt_fin, hl, decide_False]
    show (⟨fin nx + 0 * fin ex, fin ny + 1 * fin ey⟩ : vec2) = _
    simp

theorem exitTime_of_next (s : State) (nx ny : ℚ) (h : s.nextXYZ = ⟨fin nx, fin ny⟩) :
    exitTime s = fin (if nx < ny then nx else ny) := by
  obtain ⟨c, nxt⟩ := s
  simp only at h
  subst h
  exact exitTime_fin c nx ny

theorem FinNext.of_body (st : vec2) (ex ey : ℚ) (s : State) (h : FinNext s) :
    FinNext (body st ⟨fin ex, fin ey⟩ s) := by
  obtain ⟨nx, ny, h⟩ := h
  rw [FinNext, body_next_fin st ex ey s nx ny h]
  by_cases hl : nx < ny
  · exact ⟨nx + ex, ny, by simp only [hl, if_true]⟩
  · exact ⟨nx, ny + ey, by simp only [hl, if_false]⟩

/-- From one iteration to the next the `exitTime` does not decrease; it stays
the same exactly when the two components of `nextXYZ` are equal. -/
theorem exitTime_body (st : vec2) (ex ey : ℚ) (hex : 0 < ex) (hey : 0 < ey) (s : State)
    (h : FinNext s) :
    Flt.le (exitTime s) (exitTime (body st ⟨fin ex, fin ey⟩ s)) = true ∧
    (s.nextXYZ.x ≠ s.nextXYZ.y →
      Flt.lt (exitTime s) (exitTime (body st ⟨fin ex, fin ey⟩ s)) = true) := by
  obtain ⟨nx, ny, h⟩ := h
  have hb := body_next_fin st ex ey s nx ny h
  rw [exitTime_of_next s nx ny h]
  by_cases hl : nx < ny
  · simp only [hl, if_true] at hb ⊢
    rw [exitTime_of_next _ _ _ hb]
    simp only [Flt.le_fin, Flt.lt_fin, decide_eq_true_eq]
    by_cases h2 : nx + ex < ny
    · simp only [h2, if_true]
      exact ⟨by linarith, fun _ => by linarith⟩
    · simp only [h2, if_false]
      exact ⟨hl.le, fun _ => hl⟩
  · simp only [hl, if_false] at hb ⊢
    rw [exitTime_of_next _ _ _ hb]
    simp only [Flt.le_fin, Flt.lt_fin, decide_eq_true_eq]
    have hge : ny ≤ nx := not_lt.1 hl
    by_cases h2 : nx < ny + ey
    · simp only [h2, if_true]
      refine ⟨hge, fun hne => lt_of_le_of_ne hge fun e => hne ?_⟩
      rw [h, e]
    · simp only [h2, if_false]
      exact ⟨by linarith, fun _ => by linarith⟩

/-- One component of `deltaXYZ` in the debug branch: `FLT_MAX` when the zero
test answers yes, the quotient otherwise; positive and finite in both cases. -/
theorem delta_debug_pos (is_eq : Flt → Flt → Bool) (d : ℚ)
    (hd : d ≠ 0 ∨ is_eq (fin d) 0 = true) :
    ∃ e : ℚ, 0 < e ∧ (if is_eq (fin d) 0 = true then FLT_MAX else fin (sgn d) / fin d) = fin e := by
  have pm : (0 : ℚ) < 3402823466 * 10 ^ 29 := by norm_num
  cases h : is_eq (fin d) 0 with
  | true => exact ⟨_, pm, by simp [FLT_MAX]⟩
  | false =>
    have hd2 : d ≠ 0 := by
      rcases hd with h1 | h1
      · exact h1
      · rw [h] at h1
        exact absurd h1 (by simp)
    exact ⟨_, sgn_div_pos d hd2, by simp [Flt.div_fin _ _ hd2]⟩

/-- Every build computes a positive finite `deltaXYZ` for a direction whose
components are non-zero or, in the debug build, taken for zero by the zero
test: the quotient, or `FLT_MAX`. -/
theorem deltaOf_pos (debug : Bool) (is_eq : Flt → Flt → Bool) (dx dy : ℚ)
    (hdx : dx ≠ 0 ∨ (debug = true ∧ is_eq (fin dx) 0 = true))
    (hdy : dy ≠ 0 ∨ (debug = true ∧ is_eq (fin dy) 0 = true)) :
    ∃ ex ey : ℚ, 0 < ex ∧ 0 < ey ∧
      deltaOf debug is_eq ⟨fin dx, fin dy⟩ ⟨fin (sgn dx), fin (sgn dy)⟩ = ⟨fin ex, fin ey⟩ := by
  unfold deltaOf
  cases debug with
  | false =>
    have hx : dx ≠ 0 := by
      rcases hdx with h | ⟨h, -⟩
      · exact h
      · exact absurd h (by simp)
    have hy : dy ≠ 0 := by
      rcases hdy with h | ⟨h, -⟩
      · exact h
      · exact absurd h (by simp)
    refine ⟨_, _, sgn_div_pos dx hx, sgn_div_pos dy hy, ?_⟩
    show (⟨fin (sgn dx) / fin dx, fin (sgn dy) / fin dy⟩ : vec2) = _
    rw [Flt.div_fin _ _ hx, Flt.div_fin _ _ hy]
  | true =>
    obtain ⟨ex, hex, e1⟩ := delta_debug_pos is_eq dx (hdx.imp id fun h => h.2)
    obtain ⟨ey, hey, e2⟩ := delta_debug_pos is_eq dy (hdy.imp id fun h => h.2)
    refine ⟨ex, ey, hex, hey, ?_⟩
    simp only [if_true]
    rw [e1, e2]

/-- The initial `nextXYZ` of an axis is positive when the nudged origin lies in
the cell of the origin. -/
theorem init_pos (o e : ℚ) (s : ℤ) (hs : s = 1 ∨ s = -1) (he : 0 < e)
    (ho : ⌊o + 1 / 1000⌋ = ⌊o⌋) :
    0 < -(s : ℚ) * (o + 1 / 1000 - (⌊o⌋ : ℤ)) * e + (if (s : ℚ) < 0 then 0 else (s : ℚ)) * e := by
  have h1 : ((⌊o⌋ : ℤ) : ℚ) ≤ o := Int.floor_le _
  have h2 : o + 1 / 1000 < (⌊o⌋ : ℤ) + 1 := by rw [← ho]; exact Int.lt_floor_add_one _
  rcases hs with rfl | rfl
  · norm_num
    have : 0 < ((⌊o⌋ : ℤ) + 1 - (o + 1 / 1000)) * e := mul_pos (by linarith) he
    norm_num at this
    linarith
  · norm_num
    have : 0 < (o + 1 / 1000 - (⌊o⌋ : ℤ)) * e := mul_pos (by linarith) he
    norm_num at this
    linarith

theorem pos_smaller (a b : ℚ) (ha : 0 < a) (hb : 0 < b) : 0 < (if a < b then a else b) := by
  split <;> assumption

theorem entry_chain (W : Flt) (st : vec2) (ex ey : ℚ) (hex : 0 < ex) (hey : 0 < ey) :
    ∀ (tr : List State) (s : State) (t : Flt), FinNext s → Flt.le t (exitTime s) = true →
      IsTrace W st ⟨fin ex, fin ey⟩ s tr →
      List.Chain' (fun a b => Flt.le a b = true) ((withEntry t tr).map Prod.fst) := by
  intro tr
  induction tr with
  | nil => intro s t _ _ _; exact List.chain'_nil
  | cons b tr ih =>
    intro s t hfin hle ht
    obtain ⟨rfl, -, ht⟩ := ht
    have hrest := ih _ (exitTime b) (hfin.of_body st ex ey) (exitTime_body st ex ey hex hey b hfin).1 ht
    show List.Chain' _ (t :: (withEntry (exitTime b) tr).map Prod.fst)
    refine List.Chain'.cons' hrest ?_
    intro y hy
    cases tr with
    | nil => simp [withEntry] at hy
    | cons c tr =>
      simp only [withEntry, List.map_cons, List.head?_cons, Option.mem_def,
        Option.some.injEq] at hy
      subst hy
      exact hle

theorem exit_chain (W : Flt) (st : vec2) (ex ey : ℚ) (hex : 0 < ex) (hey : 0 < ey) :
    ∀ (tr : List State) (s : State), FinNext s → IsTrace W st ⟨fin ex, fin ey⟩ s tr →
      List.Chain' (fun a b => a.nextXYZ.x ≠ a.nextXYZ.y →
        Flt.lt (exitTime a) (exitTime b) = true) tr := by
  intro tr
  induction tr with
  | nil => intro s _ _; exact List.chain'_nil
  | cons b tr ih =>
    intro s hfin ht
    obtain ⟨rfl, -, ht⟩ := ht
    have hrest := ih _ (hfin.of_body st ex ey) ht
    cases tr with
    | nil => exact List.chain'_singleton _
    | cons c tr =>
      have hc : c = body st ⟨fin ex, fin ey⟩ b := ht.1
      refine List.Chain'.cons ?_ hrest
      rw [hc]
      exact (exitTime_body st ex ey hex hey b hfin).2

/-- C9, as amended: let each of the two finite components of the direction be
non-zero or, in the debug build, taken for zero by the zero test, and let the
nudged origin lie in the cell of the origin.  Then the distances at which the
ray enters the painted cells (`0`, then `min(nextXYZ.x, nextXYZ.y)` of each
iteration) never decrease; the first step is positive; and from one iteration
to the next `min(nextXYZ.x, nextXYZ.y)` grows strictly unless
`nextXYZ.x = nextXYZ.y` in the earlier one (the ray crosses a cell corner). -/
theorem C9_distance_monotone (debug : Bool) (is_eq : Flt → Flt → Bool) (world_size : Nat)
    (ox oy dx dy : ℚ) (len : Flt) (n : Nat)
    (hdx : dx ≠ 0 ∨ (debug = true ∧ is_eq (fin dx) 0 = true))
    (hdy : dy ≠ 0 ∨ (debug = true ∧ is_eq (fin dy) 0 = true))
    (hcell : vec2.floor ((⟨fin ox, fin oy⟩ : vec2) + vec2.splat EPSILON) =
      vec2.floor ⟨fin ox, fin oy⟩) :
    ∃ f, display debug is_eq world_size ⟨fin ox, fin oy⟩ ⟨fin dx, fin dy⟩ len
        (world_size + world_size + n) = some f ∧
      List.Chain' (fun a b => Flt.le a b = true) (entryTimes f.trace) ∧
      (∀ s ∈ f.trace.head?, Flt.lt (fin 0) (exitTime s) = true) ∧
      List.Chain' (fun a b => a.nextXYZ.x ≠ a.nextXYZ.y →
        Flt.lt (exitTime a) (exitTime b) = true) f.trace := by
  obtain ⟨f, hf, ht, -⟩ :=
    display_run debug is_eq world_size ⟨fin ox, fin oy⟩ ⟨fin dx, fin dy⟩ len n
  refine ⟨f, hf, ?_⟩
  obtain ⟨hox, hoy⟩ := floor_nudge ox oy hcell
  obtain ⟨ex, ey, hex, hey, hde⟩ := deltaOf_pos debug is_eq dx dy hdx hdy
  rw [stepOf_fin, hde] at ht
  have hi := initial_fin debug is_eq ox oy dx dy ex ey hde
  have px := init_pos ox ex (sgn dx) (sgn_cases dx) hex hox
  have py := init_pos oy ey (sgn dy) (sgn_cases dy) hey hoy
  have hfin : FinNext (initial debug is_eq ⟨fin ox, fin oy⟩ ⟨fin dx, fin dy⟩) := by
    rw [hi]; exact ⟨_, _, rfl⟩
  have h0 : Flt.lt (fin 0) (exitTime (initial debug is_eq ⟨fin ox, fin oy⟩ ⟨fin dx, fin dy⟩)) =
      true := by
    rw [hi, exitTime_fin]
    simp only [Flt.lt_fin, decide_eq_true_eq]
    exact pos_smaller _ _ px py
  have h0le : Flt.le (fin 0) (exitTime (initial debug is_eq ⟨fin ox, fin oy⟩ ⟨fin dx, fin dy⟩)) =
      true := by
    rw [hi, exitTime_fin] at h0 ⊢
    simp only [Flt.lt_fin, Flt.le_fin, decide_eq_true_eq] at h0 ⊢
    exact h0.le
  refine ⟨entry_chain _ _ ex ey hex hey _ _ _ hfin h0le ht, ?_,
    exit_chain _ _ ex ey hex hey _ _ hfin ht⟩
  intro s hs
  cases hfe : f.trace with
  | nil => rw [hfe] at hs; simp at hs
  | cons a tr =>
    rw [hfe] at hs ht
    simp only [List.head?_cons, Option.mem_def, Option.some.injEq] at hs
    obtain ⟨rfl, -, -⟩ := ht
    rw [← hs]
    exact h0

/-- C9, witness.  The release build from `(16.5, 16.5)` along `(1, 1)`, the ray
through the cell corners on the diagonal; and the debug build, with the exact
zero test, at the axis-aligned ray of the program from `(16.5, 16)` along
`(1, 0)`. -/
theorem C9_distance_monotone_witness :
    (((1 : ℚ) ≠ 0 ∨ (false = true ∧ is_eq_exact (fin 1) 0 = true)) ∧
      vec2.floor ((⟨fin (33 / 2), fin (33 / 2)⟩ : vec2) + vec2.splat EPSILON) =
        vec2.floor ⟨fin (33 / 2), fin (33 / 2)⟩ ∧
      ∃ f, display false is_eq_exact 64 ⟨fin (33 / 2), fin (33 / 2)⟩ ⟨fin 1, fin 1⟩ (fin 30)
          (64 + 64 + 0) = some f ∧
        List.Chain' (fun a b => Flt.le a b = true) (entryTimes f.trace) ∧
        (∀ s ∈ f.trace.head?, Flt.lt (fin 0) (exitTime s) = true) ∧
        List.Chain' (fun a b => a.nextXYZ.x ≠ a.nextXYZ.y →
          Flt.lt (exitTime a) (exitTime b) = true) f.trace) ∧
    (((1 : ℚ) ≠ 0 ∨ (true = true ∧ is_eq_exact (fin 1) 0 = true)) ∧
      ((0 : ℚ) ≠ 0 ∨ (true = true ∧ is_eq_exact (fin 0) 0 = true)) ∧
      vec2.floor ((⟨fin (33 / 2), fin 16⟩ : vec2) + vec2.splat EPSILON) =
        vec2.floor ⟨fin (33 / 2), fin 16⟩ ∧
      ∃ f, display true is_eq_exact 64 ⟨fin (33 / 2), fin 16⟩ ⟨fin 1, fin 0⟩ (fin 30)
          (64 + 64 + 0) = some f ∧
        List.Chain' (fun a b => Flt.le a b = true) (entryTimes f.trace) ∧
        (∀ s ∈ f.trace.head?, Flt.lt (fin 0) (exitTime s) = true) ∧
        List.Chain' (fun a b => a.nextXYZ.x ≠ a.nextXYZ.y →
          Flt.lt (exitTime a) (exitTime b) = true) f.trace) :=
  ⟨⟨Or.inl (by norm_num), by decide!,
      C9_distance_monotone false is_eq_exact 64 (33 / 2) (33 / 2) 1 1 (fin 30) 0
        (Or.inl (by norm_num)) (Or.inl (by norm_num)) (by decide!)⟩,
    ⟨Or.inl (by norm_num), Or.inr ⟨rfl, by decide!⟩, by decide!,
      C9_distance_monotone true is_eq_exact 64 (33 / 2) 16 1 0 (fin 30) 0
        (Or.inl (by norm_num)) (Or.inr ⟨rfl, by decide!⟩) (by decide!)⟩⟩

/-- C9, counterexample.  All inputs are binary32 values.  From `(16.5, 16.5)`
along `(1, 1)` both axes compute the same `nextXYZ`, so the first iteration has
`nextXYZ.x = nextXYZ.y`: the ray crosses the corner `(17, 17)`, the cells
`(16, 17)` and `(17, 17)` are entered at the same distance, and of the first
three distances the second is above the first but the third is not above the
second.  From the origin `(16 - 1/2048, 16)`, whose nudged position is outside
the cell `(15, 16)`, the second cell is entered at a negative distance.  In the
release build a direction with a zero component gives `NaN`, which is not
above `0`. -/
theorem C9_counterexample :
    (display false is_eq_exact 64 ⟨fin (33 / 2), fin (33 / 2)⟩ ⟨fin 1, fin 1⟩
      (fin 30) 128).map (fun f => ((cells f).take 3, (f.trace.take 1).map (fun s => decide (s.nextXYZ.x = s.nextXYZ.y)),
        List.zipWith Flt.lt ((entryTimes f.trace).take 3)
          ((entryTimes f.trace).take 3).tail)) =
      some ([⟨fin 16, fin 16⟩, ⟨fin 16, fin 17⟩, ⟨fin 17, fin 17⟩],
        [true], [true, false]) ∧
    (display false is_eq_exact 64 ⟨fin (32767 / 2048), fin 16⟩ ⟨fin 1, fin 1⟩
      (fin 30) 128).map (fun f => ((cells f).take 2,
        ((entryTimes f.trace).take 2).map fun t => Flt.lt t (fin 0))) =
      some ([⟨fin 15, fin 16⟩, ⟨fin 16, fin 16⟩], [false, true]) ∧
    (display false is_eq_exact 64 ⟨fin (33 / 2), fin 16⟩ ⟨fin 1, fin 0⟩
      (fin 30) 128).map (fun f => ((cells f).take 2, (entryTimes f.trace).take 2,
        List.zipWith Flt.lt ((entryTimes f.trace).take 2)
          ((entryTimes f.trace).take 2).tail)) =
      some ([⟨fin 16, fin 16⟩, ⟨fin 16, fin 17⟩], [fin 0, nan], [false]) := by
  decide!

end Raycast
